import Mathlib

/-!
Shallow embedding of the Html Scanner program
(src/Html Scanner/Html Scanner.cpp, with the case-sensitive draft in
src/HtmlScanner/Html Scanner.cpp).

Strings of the C++ program are modelled as lists of characters; file
contents are modelled as the list of lines that std::getline produces.
The filesystem is modelled as the list of directory entries that the
recursive traversal surfaces, in traversal order, each carrying its
path, whether it is a regular file, whether an ifstream on it opens,
and its lines.
-/

/-- A C++ std::string, modelled as a list of characters. -/
abbrev Str := List Char

/-- Coerce a Lean string literal to the model type. -/
def str (s : String) : Str := s.toList

/-- The character transform applied by std::tolower in the default C
locale: ASCII capital letters are shifted to lowercase, every other
character is unchanged. -/
def toLowerChar (c : Char) : Char :=
  if 'A' ≤ c ∧ c ≤ 'Z' then Char.ofNat (c.toNat + 32) else c

/-- ToLower from the source: std::transform over the whole string with
std::tolower. -/
def ToLower (s : Str) : Str := s.map toLowerChar

/-- Test for needle occurring at the very start of haystack. -/
def leadsWith : Str → Str → Bool
  | [], _ => true
  | _ :: _, [] => false
  | a :: as, b :: bs => a = b && leadsWith as bs

/-- The test std::string::find(needle) != npos from the source: needle
occurs as a contiguous substring of haystack (the empty needle occurs
in every haystack). -/
def occursIn (needle : Str) : Str → Bool
  | [] => leadsWith needle []
  | c :: rest => leadsWith needle (c :: rest) || occursIn needle rest

/-- The per-line, per-keyword test of the scanner:
ToLower(line).find(ToLower(keyword)) != std::string::npos. -/
def matchesLine (keyword line : Str) : Bool :=
  occursIn (ToLower keyword) (ToLower line)

/-- The strict ordering used by std::string operator< (and hence by
std::set of strings and std::map keyed by strings): lexicographic on
character codes. -/
def strLt : Str → Str → Bool
  | _, [] => false
  | [], _ :: _ => true
  | a :: as, b :: bs =>
    if a.toNat < b.toNat then true
    else if b.toNat < a.toNat then false
    else strLt as bs

/-- The strict order as a proposition. -/
def SLt (a b : Str) : Prop := strLt a b = true

instance : DecidablePred fun p : Str × Str => SLt p.1 p.2 := by
  intro p; unfold SLt; infer_instance

instance (a b : Str) : Decidable (SLt a b) := by
  unfold SLt; infer_instance

/-- Insertion into a std::set of std::string, modelled as a strictly
ascending list without duplicates. -/
def setInsert (s : List Str) (k : Str) : List Str :=
  match s with
  | [] => [k]
  | x :: xs =>
    if k = x then x :: xs
    else if strLt k x then k :: x :: xs
    else x :: setInsert xs k

/-- Processing one line of a file: the inner loop over the keywords,
inserting each keyword that matches the line into the per-file set
keywordsFoundInFile. -/
def lineStep (kws : List Str) (acc : List Str) (line : Str) : List Str :=
  kws.foldl (fun s k => if matchesLine k line then setInsert s k else s) acc

/-- The per-file while loop over std::getline: the resulting contents
of the std::set keywordsFoundInFile, in its iteration (ascending)
order. -/
def keywordsFoundInFile (kws : List Str) (lines : List Str) : List Str :=
  lines.foldl (lineStep kws) []

/-- A std::map from std::string to std::vector of std::string,
modelled as an association list whose keys are strictly ascending. -/
abbrev MatchIndex := List (Str × List Str)

/-- Lookup of the vector stored under a key (the empty vector when the
key is absent). -/
def findKey : MatchIndex → Str → List Str
  | [], _ => []
  | (k2, v) :: rest, k => if k = k2 then v else findKey rest k

/-- The effect of foundFilesByKeyword[keyword].push_back(path) on a
std::map: operator[] default-constructs an empty vector for an absent
key at its ordered position, then push_back appends the path. -/
def mapInsert (m : MatchIndex) (k : Str) (v : Str) : MatchIndex :=
  match m with
  | [] => [(k, [v])]
  | (k2, vs) :: rest =>
    if k = k2 then (k2, vs ++ [v]) :: rest
    else if strLt k k2 then (k, [v]) :: (k2, vs) :: rest
    else (k2, vs) :: mapInsert rest k v

/-- The loop over keywordsFoundInFile that records the file under each
keyword found in it. -/
def insertAll (found : List Str) (p : Str) (m : MatchIndex) : MatchIndex :=
  found.foldl (fun acc k => mapInsert acc k p) m

/-- One entry surfaced by the recursive directory traversal. -/
structure Entry where
  path : Str
  isRegularFile : Bool
  readable : Bool
  lines : List Str
deriving DecidableEq

/-- The suffix of a name starting at its rightmost period, or the
empty string when the name has no period. -/
def suffixFromLastDot : Str → Str
  | [] => []
  | c :: cs =>
    let s := suffixFromLastDot cs
    if s ≠ [] then s else if c = '.' then c :: cs else []

/-- The filename component of a path: everything after the last
directory separator. -/
def filenameOf (p : Str) : Str :=
  (p.reverse.takeWhile (fun c => c ≠ '/')).reverse

/-- std::filesystem::path::extension of a path: the substring of the
filename from its rightmost period, except that the special names dot
and dot-dot and a period that is the first character of the filename
yield no extension. -/
def extension (p : Str) : Str :=
  match filenameOf p with
  | [] => []
  | c :: rest =>
    if c :: rest = str ".." then []
    else suffixFromLastDot rest

/-- The guard of the scan loop: entry.is_regular_file() and the
extension compares equal to ".html" or ".htm". -/
def scansEntry (e : Entry) : Bool :=
  e.isRegularFile &&
    (extension e.path = str ".html" || extension e.path = str ".htm")

/-- Processing of one directory entry by the scan loop: non-candidates
are skipped, a candidate whose ifstream does not open is skipped with
a warning, and otherwise the file path is recorded under every keyword
found in the file. -/
def scanEntry (kws : List Str) (m : MatchIndex) (e : Entry) : MatchIndex :=
  if scansEntry e then
    if e.readable then insertAll (keywordsFoundInFile kws e.lines) e.path m
    else m
  else m

/-- The whole scan: fold the per-entry processing over the entries in
traversal order, starting from the empty map. -/
def buildIndex (kws : List Str) (entries : List Entry) : MatchIndex :=
  entries.foldl (scanEntry kws) []

/-- The separator literal written around each keyword heading. -/
def eqLine : Str := str "=========================" ++ str "========================="

/-- The heading line naming a keyword, with the keyword in double
quotes. -/
def keywordHeading (k : Str) : Str :=
  str "Files containing keyword: \"" ++ k ++ str "\""

/-- The report written to the output file, as its list of lines: the
header naming the absolute scan root, then either the no-files notice
or one section per key of the map in its iteration (ascending) order.
The leading empty line of each section models the bare newline the
source writes before each separator. -/
def reportLines (absRoot : Str) (m : MatchIndex) : List Str :=
  (str "Scan results for directory: " ++ absRoot) ::
    (if m = [] then
      [[], str "No files were found containing the specified keywords."]
    else
      m.foldl
        (fun acc p => acc ++ [[], eqLine, keywordHeading p.1, eqLine] ++ p.2)
        [])

/-- The argument-parsing loop of main over the arguments after the
directory, carrying outputFileName, keywords and outputFlagFound. -/
def parseLoop : List Str → Str → List Str → Bool → Str × List Str × Bool
  | [], out, kws, flag => (out, kws, flag)
  | a :: rest, out, kws, flag =>
    if flag then parseLoop rest a kws false
    else if a = str "/o" ∨ a = str "/O" then parseLoop rest out kws true
    else parseLoop rest out (kws ++ [a]) flag

/-- The configuration main has collected when parsing succeeds. -/
structure RunConfig where
  scanDirectory : Str
  outputFileName : Str
  keywords : List Str
deriving DecidableEq

/-- The four fatal argument errors, in the order main checks them:
too few arguments, bad directory, no keywords, dangling /o flag. -/
inductive ParseError where
  | UsageError
  | InvalidDirectory
  | NoKeywords
  | MissingOutputName
deriving DecidableEq

/-- Argument handling of main on argv[1..], parameterised by the
is_directory test of the host filesystem: the argc check, the parsing
loop, and the three validation checks in source order. -/
def parseArgs (isDir : Str → Bool) (args : List Str) :
    Except ParseError RunConfig :=
  if args.length < 2 then .error .UsageError
  else
    match args with
    | [] => .error .UsageError
    | dir :: rest =>
      let r := parseLoop rest (str "output.txt") [] false
      if dir = [] ∨ isDir dir = false then .error .InvalidDirectory
      else if r.2.1 = [] then .error .NoKeywords
      else if r.2.2 then .error .MissingOutputName
      else .ok ⟨dir, r.1, r.2.1⟩

/-- Modelled from the spec: the declarative reading of the /o grammar.
It returns the output name of the last /o pair when one exists, the
tokens that are keywords, and whether a dangling /o ends the list; a
token directly after an unconsumed /o is consumed as the output name
and is not a keyword. -/
def specParse : List Str → Option Str × List Str × Bool
  | [] => (none, [], false)
  | a :: rest =>
    if a = str "/o" ∨ a = str "/O" then
      match rest with
      | [] => (none, [], true)
      | b :: rest2 =>
        let r := specParse rest2
        (some (r.1.getD b), r.2.1, r.2.2)
    else
      let r := specParse rest
      (r.1, a :: r.2.1, r.2.2)

/-- Whole-program behaviour: the exit code and the report file written
(none when no file is produced). The host filesystem enters through
the is_directory test, the traversal entries, the absolute form of the
scan root, and whether the output ofstream opens. -/
def runMain (isDir : Str → Bool) (entries : List Entry) (absRoot : Str)
    (outOpenable : Bool) (args : List Str) : Nat × Option (List Str) :=
  match parseArgs isDir args with
  | .error _ => (1, none)
  | .ok cfg =>
    if outOpenable then
      (0, some (reportLines absRoot (buildIndex cfg.keywords entries)))
    else (1, none)

/-- The per-line, per-keyword test of the case-sensitive draft variant
in src/HtmlScanner: line.find(keyword) != npos, with no lowercasing. -/
def matchesLineCS (keyword line : Str) : Bool :=
  occursIn keyword line

/-- The per-file loop of the draft variant. -/
def keywordsFoundInFileCS (kws : List Str) (lines : List Str) : List Str :=
  lines.foldl
    (fun acc line =>
      kws.foldl (fun s k => if matchesLineCS k line then setInsert s k else s) acc)
    []

/-- Per-entry processing of the draft variant. -/
def scanEntryCS (kws : List Str) (m : MatchIndex) (e : Entry) : MatchIndex :=
  if scansEntry e then
    if e.readable then insertAll (keywordsFoundInFileCS kws e.lines) e.path m
    else m
  else m

/-- The whole scan of the draft variant. -/
def buildIndexCS (kws : List Str) (entries : List Entry) : MatchIndex :=
  entries.foldl (scanEntryCS kws) []

/-- An entry contributes to the vector of keyword k exactly when it
passes the candidate filter, its ifstream opens, and k is found in its
lines. -/
def entryHit (kws : List Str) (k : Str) (e : Entry) : Bool :=
  scansEntry e && e.readable && decide (k ∈ keywordsFoundInFile kws e.lines)

/-- A host filesystem on which exactly the path ./site is a
directory. -/
def siteOnly : Str → Bool := fun s => decide (s = str "./site")

/-- A traversal entry for a regular file named INDEX.HTML whose content
would match, were the file not filtered out by its extension. -/
def indexUpperEntry : Entry :=
  ⟨str "site/INDEX.HTML", true, true, [str "<form>"]⟩

/-- A traversal entry for a regular file named index.html. -/
def indexLowerEntry : Entry :=
  ⟨str "site/index.html", true, true, [str "<form>"]⟩

/-- A two-file tree used to evaluate the theorems on concrete input. -/
def sampleEntries : List Entry :=
  [⟨str "site/a.html", true, true, [str "<FORM action>", str "<div>"]⟩,
   ⟨str "site/b.htm", true, true, [str "gallery here", str "<form>"]⟩]

/-- A tree whose lines are all fixed by ASCII lowercasing. -/
def lowerEntries : List Entry :=
  [⟨str "site/a.html", true, true, [str "<form>"]⟩,
   ⟨str "site/b.htm", true, true, [str "<div>"]⟩]

example : occursIn (str "form") (str "x<form>") = true := by decide
example : occursIn (str "form") (str "x<for>") = false := by decide
example : occursIn (str "") (str "") = true := by decide
example : matchesLine (str "FORM") (str "<form>") = true := by decide
example : strLt (str "form") (str "gallery") = true := by decide
example : strLt (str "gallery") (str "form") = false := by decide
example : ToLower (str "INDEX.HTML") = str "index.html" := by decide
example : extension (str "site/a.html") = str ".html" := by decide
example : extension (str "site/INDEX.HTML") = str ".HTML" := by decide
example : extension (str "site/b.htm") = str ".htm" := by decide
example : extension (str "site/.html") = str "" := by decide
example : extension (str "site/notes.txt") = str ".txt" := by decide
example : keywordsFoundInFile [str "form", str "tab"]
    [str "<FORM a>", str "<table>", str "<form>"] = [str "form", str "tab"] := by decide
example : parseLoop [str "/o", str "res.txt", str "form"]
    (str "output.txt") [] false = (str "res.txt", [str "form"], false) := by decide
example : parseArgs (fun _ => true) [str "./site", str "/o"]
    = .error .NoKeywords := by rfl
example : specParse [str "/o", str "a", str "k", str "/O", str "b"]
    = (some (str "b"), [str "k"], false) := by decide
example : buildIndex [str "form"]
    [⟨str "s/a.html", true, true, [str "<FORM>"]⟩]
    = [(str "form", [str "s/a.html"])] := by decide
example : reportLines (str "/abs/site") [] =
    [str "Scan results for directory: /abs/site", [],
     str "No files were found containing the specified keywords."] := by decide

/-! Order-theoretic facts about the std::string comparison. -/

theorem charToNat_inj {a b : Char} (h : a.toNat = b.toNat) : a = b := by
  have h2 := congrArg Char.ofNat h
  rwa [Char.ofNat_toNat, Char.ofNat_toNat] at h2

theorem strLt_cons (a b : Char) (as bs : Str) :
    strLt (a :: as) (b :: bs) =
      (decide (a.toNat < b.toNat) ||
        (decide (a.toNat = b.toNat) && strLt as bs)) := by
  simp only [strLt]
  by_cases h1 : a.toNat < b.toNat
  · simp [h1]
  · by_cases h2 : b.toNat < a.toNat
    · simp [h1, h2]; omega
    · have h3 : a.toNat = b.toNat := by omega
      simp [h1, h2, h3]

theorem strLt_irrefl : ∀ s : Str, strLt s s = false
  | [] => rfl
  | a :: as => by
      rw [strLt_cons, strLt_irrefl as]
      simp

theorem strLt_trans {a b c : Str} (h1 : strLt a b = true)
    (h2 : strLt b c = true) : strLt a c = true := by
  induction a generalizing b c with
  | nil =>
    cases b with
    | nil => simp [strLt] at h1
    | cons b0 bs =>
      cases c with
      | nil => simp [strLt] at h2
      | cons c0 cs => rfl
  | cons a0 as ih =>
    cases b with
    | nil => simp [strLt] at h1
    | cons b0 bs =>
      cases c with
      | nil => simp [strLt] at h2
      | cons c0 cs =>
        rw [strLt_cons] at h1 h2 ⊢
        simp only [Bool.or_eq_true, Bool.and_eq_true, decide_eq_true_eq]
          at h1 h2 ⊢
        rcases h1 with h1 | ⟨he1, hs1⟩
        · rcases h2 with h2 | ⟨he2, hs2⟩
          · exact Or.inl (by omega)
          · exact Or.inl (by omega)
        · rcases h2 with h2 | ⟨he2, hs2⟩
          · exact Or.inl (by omega)
          · exact Or.inr ⟨by omega, ih hs1 hs2⟩

theorem strLt_asymm {a b : Str} (h : strLt a b = true) :
    strLt b a = false := by
  by_contra hc
  have hba : strLt b a = true := by
    cases hx : strLt b a
    · exact absurd hx hc
    · rfl
  have h3 := strLt_trans h hba
  rw [strLt_irrefl] at h3
  exact Bool.noConfusion h3

theorem strLt_connex {a b : Str} (hne : a ≠ b) (h : strLt a b = false) :
    strLt b a = true := by
  induction a generalizing b with
  | nil =>
    cases b with
    | nil => exact absurd rfl hne
    | cons b0 bs => simp [strLt] at h
  | cons a0 as ih =>
    cases b with
    | nil => rfl
    | cons b0 bs =>
      rw [strLt_cons] at h ⊢
      simp only [Bool.or_eq_false_iff, Bool.and_eq_false_iff,
        decide_eq_false_iff_not, Bool.or_eq_true, Bool.and_eq_true,
        decide_eq_true_eq] at h ⊢
      obtain ⟨hnlt, hrest⟩ := h
      by_cases heq : a0.toNat = b0.toNat
      · rcases hrest with hne0 | hs
        · exact absurd heq hne0
        · have hab : a0 = b0 := charToNat_inj heq
          subst hab
          have hne2 : as ≠ bs := fun hq => hne (by rw [hq])
          refine Or.inr ⟨rfl, ih hne2 ?_⟩
          cases hx : strLt as bs
          · rfl
          · exact absurd hx (by rw [hs]; exact Bool.noConfusion)
      · exact Or.inl (by omega)

instance : IsAntisymm Str SLt :=
  ⟨fun a b h1 h2 => by
    have h3 := strLt_trans h1 h2
    rw [strLt_irrefl] at h3
    exact Bool.noConfusion h3⟩

theorem sLt_ne {a b : Str} (h : SLt a b) : a ≠ b := by
  intro he
  subst he
  have h2 : strLt a a = true := h
  rw [strLt_irrefl] at h2
  exact Bool.noConfusion h2

/-- A strictly ascending list of strings has no duplicates. -/
theorem pairwiseNodup {l : List Str} (h : l.Pairwise SLt) : l.Nodup :=
  h.imp fun hab => sLt_ne hab

/-- Two strictly ascending lists of strings with the same members are
equal. -/
theorem sorted_mem_ext {l1 l2 : List Str} (h1 : l1.Pairwise SLt)
    (h2 : l2.Pairwise SLt) (hm : ∀ x, x ∈ l1 ↔ x ∈ l2) : l1 = l2 :=
  List.eq_of_perm_of_sorted
    ((List.perm_ext_iff_of_nodup (pairwiseNodup h1) (pairwiseNodup h2)).mpr hm)
    h1 h2

/-! Facts about std::set insertion. -/

theorem bool_eq_false {b : Bool} (h : ¬ b = true) : b = false := by
  cases b
  · rfl
  · exact absurd rfl h

theorem mem_setInsert (s : List Str) (k x : Str) :
    x ∈ setInsert s k ↔ x = k ∨ x ∈ s := by
  induction s with
  | nil => simp [setInsert]
  | cons a as ih =>
    rw [setInsert]
    by_cases h1 : k = a
    · subst h1
      rw [if_pos rfl]
      simp only [List.mem_cons]
      tauto
    · rw [if_neg h1]
      by_cases h2 : strLt k a = true
      · rw [if_pos h2]
        simp only [List.mem_cons]
      · rw [if_neg h2]
        simp only [List.mem_cons, ih]
        tauto

theorem pairwise_setInsert (s : List Str) (k : Str)
    (hs : s.Pairwise SLt) : (setInsert s k).Pairwise SLt := by
  induction s with
  | nil => simp [setInsert]
  | cons a as ih =>
    rw [List.pairwise_cons] at hs
    obtain ⟨ha, has⟩ := hs
    rw [setInsert]
    by_cases h1 : k = a
    · subst h1
      rw [if_pos rfl]
      exact List.pairwise_cons.mpr ⟨ha, has⟩
    · rw [if_neg h1]
      by_cases h2 : strLt k a = true
      · rw [if_pos h2]
        refine List.pairwise_cons.mpr ⟨?_, List.pairwise_cons.mpr ⟨ha, has⟩⟩
        intro y hy
        rcases List.mem_cons.mp hy with rfl | hy2
        · exact h2
        · exact strLt_trans h2 (ha y hy2)
      · rw [if_neg h2]
        refine List.pairwise_cons.mpr ⟨?_, ih has⟩
        intro y hy
        rcases (mem_setInsert as k y).mp hy with hk | hy2
        · subst hk
          exact strLt_connex h1 (bool_eq_false h2)
        · exact ha y hy2

/-! Facts about the per-file keyword set. -/

theorem mem_lineStep (kws : List Str) (acc : List Str) (line : Str) (x : Str) :
    x ∈ lineStep kws acc line ↔
      x ∈ acc ∨ (x ∈ kws ∧ matchesLine x line = true) := by
  unfold lineStep
  induction kws generalizing acc with
  | nil => simp
  | cons k ks ih =>
    simp only [List.foldl_cons]
    by_cases h : matchesLine k line = true
    · rw [if_pos h, ih]
      constructor
      · rintro (hi | ⟨hks, hm⟩)
        · rcases (mem_setInsert acc k x).mp hi with rfl | hacc
          · exact Or.inr ⟨List.mem_cons_self _ _, h⟩
          · exact Or.inl hacc
        · exact Or.inr ⟨List.mem_cons_of_mem _ hks, hm⟩
      · rintro (hacc | ⟨hk, hm⟩)
        · exact Or.inl ((mem_setInsert acc k x).mpr (Or.inr hacc))
        · rcases List.mem_cons.mp hk with rfl | hks
          · exact Or.inl ((mem_setInsert acc x x).mpr (Or.inl rfl))
          · exact Or.inr ⟨hks, hm⟩
    · rw [if_neg h, ih]
      constructor
      · rintro (hacc | ⟨hks, hm⟩)
        · exact Or.inl hacc
        · exact Or.inr ⟨List.mem_cons_of_mem _ hks, hm⟩
      · rintro (hacc | ⟨hk, hm⟩)
        · exact Or.inl hacc
        · rcases List.mem_cons.mp hk with rfl | hks
          · exact absurd hm h
          · exact Or.inr ⟨hks, hm⟩

theorem pairwise_lineStep (kws : List Str) (acc : List Str) (line : Str)
    (h : acc.Pairwise SLt) : (lineStep kws acc line).Pairwise SLt := by
  unfold lineStep
  induction kws generalizing acc with
  | nil => exact h
  | cons k ks ih =>
    simp only [List.foldl_cons]
    by_cases hm : matchesLine k line = true
    · rw [if_pos hm]
      exact ih _ (pairwise_setInsert _ _ h)
    · rw [if_neg hm]
      exact ih _ h

theorem mem_keywordsFoundInFile (kws lines : List Str) (x : Str) :
    x ∈ keywordsFoundInFile kws lines ↔
      x ∈ kws ∧ ∃ l ∈ lines, matchesLine x l = true := by
  unfold keywordsFoundInFile
  have gen : ∀ (ls : List Str) (acc : List Str),
      x ∈ ls.foldl (lineStep kws) acc ↔
        x ∈ acc ∨ (x ∈ kws ∧ ∃ l ∈ ls, matchesLine x l = true) := by
    intro ls
    induction ls with
    | nil => simp
    | cons l ls ih =>
      intro acc
      simp only [List.foldl_cons]
      rw [ih, mem_lineStep]
      simp only [List.mem_cons]
      constructor
      · rintro ((hacc | ⟨hk, hm⟩) | ⟨hk, l2, hl2, hm2⟩)
        · exact Or.inl hacc
        · exact Or.inr ⟨hk, l, Or.inl rfl, hm⟩
        · exact Or.inr ⟨hk, l2, Or.inr hl2, hm2⟩
      · rintro (hacc | ⟨hk, l2, (rfl | hl2), hm2⟩)
        · exact Or.inl (Or.inl hacc)
        · exact Or.inl (Or.inr ⟨hk, hm2⟩)
        · exact Or.inr ⟨hk, l2, hl2, hm2⟩
  rw [gen]
  simp

theorem pairwise_keywordsFoundInFile (kws lines : List Str) :
    (keywordsFoundInFile kws lines).Pairwise SLt := by
  unfold keywordsFoundInFile
  have gen : ∀ (ls : List Str) (acc : List Str), acc.Pairwise SLt →
      (ls.foldl (lineStep kws) acc).Pairwise SLt := by
    intro ls
    induction ls with
    | nil => exact fun _ h => h
    | cons l ls ih =>
      intro acc hacc
      simp only [List.foldl_cons]
      exact ih _ (pairwise_lineStep _ _ _ hacc)
  exact gen lines [] List.Pairwise.nil

theorem nodup_keywordsFoundInFile (kws lines : List Str) :
    (keywordsFoundInFile kws lines).Nodup :=
  pairwiseNodup (pairwise_keywordsFoundInFile kws lines)

/-! Facts about std::map insertion and lookup. -/

theorem findKey_eq_nil (m : MatchIndex) (k : Str)
    (h : k ∉ m.map Prod.fst) : findKey m k = [] := by
  induction m with
  | nil => rfl
  | cons p rest ih =>
    obtain ⟨k2, vs⟩ := p
    simp only [List.map_cons, List.mem_cons] at h
    push_neg at h
    rw [findKey, if_neg h.1]
    exact ih h.2

theorem mem_keys_mapInsert (m : MatchIndex) (k v x : Str) :
    x ∈ (mapInsert m k v).map Prod.fst ↔ x = k ∨ x ∈ m.map Prod.fst := by
  induction m with
  | nil => simp [mapInsert]
  | cons p rest ih =>
    obtain ⟨k2, vs⟩ := p
    rw [mapInsert]
    by_cases h1 : k = k2
    · subst h1
      rw [if_pos rfl]
      simp only [List.map_cons, List.mem_cons]
      tauto
    · rw [if_neg h1]
      by_cases h2 : strLt k k2 = true
      · rw [if_pos h2]
        simp only [List.map_cons, List.mem_cons]
      · rw [if_neg h2]
        simp only [List.map_cons, List.mem_cons, ih]
        tauto

theorem pairwise_keys_mapInsert (m : MatchIndex) (k v : Str)
    (h : (m.map Prod.fst).Pairwise SLt) :
    ((mapInsert m k v).map Prod.fst).Pairwise SLt := by
  induction m with
  | nil => simp [mapInsert]
  | cons p rest ih =>
    obtain ⟨k2, vs⟩ := p
    simp only [List.map_cons, List.pairwise_cons] at h
    obtain ⟨hk2, hrest⟩ := h
    rw [mapInsert]
    by_cases h1 : k = k2
    · subst h1
      rw [if_pos rfl]
      simp only [List.map_cons]
      exact List.pairwise_cons.mpr ⟨hk2, hrest⟩
    · rw [if_neg h1]
      by_cases h2 : strLt k k2 = true
      · rw [if_pos h2]
        simp only [List.map_cons]
        refine List.pairwise_cons.mpr ⟨?_, List.pairwise_cons.mpr ⟨hk2, hrest⟩⟩
        intro y hy
        rcases List.mem_cons.mp hy with rfl | hy2
        · exact h2
        · exact strLt_trans h2 (hk2 y hy2)
      · rw [if_neg h2]
        simp only [List.map_cons]
        refine List.pairwise_cons.mpr ⟨?_, ih hrest⟩
        intro y hy
        rcases (mem_keys_mapInsert rest k v y).mp hy with hk | hy2
        · subst hk
          exact strLt_connex h1 (bool_eq_false h2)
        · exact hk2 y hy2

theorem findKey_mapInsert_self (m : MatchIndex) (k v : Str)
    (hs : (m.map Prod.fst).Pairwise SLt) :
    findKey (mapInsert m k v) k = findKey m k ++ [v] := by
  induction m with
  | nil => simp [mapInsert, findKey]
  | cons p rest ih =>
    obtain ⟨k2, vs⟩ := p
    simp only [List.map_cons, List.pairwise_cons] at hs
    obtain ⟨hk2, hrest⟩ := hs
    rw [mapInsert]
    by_cases h1 : k = k2
    · subst h1
      rw [if_pos rfl, findKey, if_pos rfl, findKey, if_pos rfl]
    · rw [if_neg h1]
      by_cases h2 : strLt k k2 = true
      · rw [if_pos h2, findKey, if_pos rfl, findKey, if_neg h1]
        have hnot : k ∉ rest.map Prod.fst := by
          intro hmem
          have h3 := strLt_trans h2 (hk2 k hmem)
          rw [strLt_irrefl] at h3
          exact Bool.noConfusion h3
        rw [findKey_eq_nil rest k hnot]
        simp
      · rw [if_neg h2, findKey, if_neg h1, findKey, if_neg h1]
        exact ih hrest

theorem findKey_mapInsert_ne (m : MatchIndex) (k v k2 : Str)
    (h : k2 ≠ k) : findKey (mapInsert m k v) k2 = findKey m k2 := by
  induction m with
  | nil => simp [mapInsert, findKey, h]
  | cons p rest ih =>
    obtain ⟨k3, vs⟩ := p
    rw [mapInsert]
    by_cases h1 : k = k3
    · subst h1
      have h2 : ¬ k2 = k := h
      rw [if_pos rfl, findKey, if_neg h2, findKey, if_neg h2]
    · rw [if_neg h1]
      by_cases h2 : strLt k k3 = true
      · rw [if_pos h2, findKey, if_neg h]
      · rw [if_neg h2, findKey, findKey]
        by_cases h3 : k2 = k3
        · rw [if_pos h3, if_pos h3]
        · rw [if_neg h3, if_neg h3]
          exact ih

/-! Facts about recording one file under all of its keywords. -/

theorem mem_keys_insertAll (found : List Str) (p : Str) (m : MatchIndex)
    (x : Str) :
    x ∈ (insertAll found p m).map Prod.fst ↔
      x ∈ found ∨ x ∈ m.map Prod.fst := by
  unfold insertAll
  induction found generalizing m with
  | nil => simp
  | cons f fs ih =>
    simp only [List.foldl_cons]
    rw [ih]
    simp only [mem_keys_mapInsert, List.mem_cons]
    tauto

theorem pairwise_keys_insertAll (found : List Str) (p : Str) (m : MatchIndex)
    (h : (m.map Prod.fst).Pairwise SLt) :
    ((insertAll found p m).map Prod.fst).Pairwise SLt := by
  unfold insertAll
  induction found generalizing m with
  | nil => exact h
  | cons f fs ih =>
    simp only [List.foldl_cons]
    exact ih _ (pairwise_keys_mapInsert _ _ _ h)

theorem findKey_insertAll (found : List Str) (p : Str) (m : MatchIndex)
    (k : Str) (hnd : found.Nodup) (hs : (m.map Prod.fst).Pairwise SLt) :
    findKey (insertAll found p m) k =
      if k ∈ found then findKey m k ++ [p] else findKey m k := by
  unfold insertAll
  induction found generalizing m with
  | nil => simp
  | cons f fs ih =>
    simp only [List.foldl_cons]
    rw [List.nodup_cons] at hnd
    obtain ⟨hf, hfs⟩ := hnd
    rw [ih _ hfs (pairwise_keys_mapInsert _ _ _ hs)]
    by_cases h1 : k = f
    · subst h1
      rw [if_neg hf, if_pos (List.mem_cons_self _ _)]
      exact findKey_mapInsert_self m k p hs
    · rw [findKey_mapInsert_ne m f p k h1]
      by_cases h2 : k ∈ fs
      · rw [if_pos h2, if_pos (List.mem_cons_of_mem _ h2)]
      · rw [if_neg h2, if_neg (by simp [h1, h2])]

/-! Facts about the scan of one entry and of the whole tree. -/

theorem findKey_scanEntry (kws : List Str) (m : MatchIndex) (e : Entry)
    (k : Str) (hs : (m.map Prod.fst).Pairwise SLt) :
    findKey (scanEntry kws m e) k =
      if entryHit kws k e then findKey m k ++ [e.path] else findKey m k := by
  unfold scanEntry entryHit
  by_cases h1 : scansEntry e = true
  · by_cases h2 : e.readable = true
    · rw [if_pos h1, if_pos h2,
        findKey_insertAll _ _ _ _ (nodup_keywordsFoundInFile kws e.lines) hs]
      by_cases h3 : k ∈ keywordsFoundInFile kws e.lines
      · rw [if_pos h3, if_pos (by simp [h1, h2, h3])]
      · rw [if_neg h3, if_neg (by simp [h3])]
    · rw [if_pos h1, if_neg h2, if_neg (by simp [bool_eq_false h2])]
  · rw [if_neg h1, if_neg (by simp [bool_eq_false h1])]

theorem pairwise_keys_scanEntry (kws : List Str) (m : MatchIndex) (e : Entry)
    (hs : (m.map Prod.fst).Pairwise SLt) :
    ((scanEntry kws m e).map Prod.fst).Pairwise SLt := by
  unfold scanEntry
  by_cases h1 : scansEntry e = true
  · by_cases h2 : e.readable = true
    · rw [if_pos h1, if_pos h2]
      exact pairwise_keys_insertAll _ _ _ hs
    · rw [if_pos h1, if_neg h2]; exact hs
  · rw [if_neg h1]; exact hs

theorem mem_keys_scanEntry (kws : List Str) (m : MatchIndex) (e : Entry)
    (x : Str) (hx : x ∈ (scanEntry kws m e).map Prod.fst) :
    x ∈ m.map Prod.fst ∨ x ∈ kws := by
  unfold scanEntry at hx
  by_cases h1 : scansEntry e = true
  · by_cases h2 : e.readable = true
    · rw [if_pos h1, if_pos h2, mem_keys_insertAll] at hx
      rcases hx with hf | hm
      · exact Or.inr ((mem_keywordsFoundInFile kws e.lines x).mp hf).1
      · exact Or.inl hm
    · rw [if_pos h1, if_neg h2] at hx
      exact Or.inl hx
  · rw [if_neg h1] at hx
    exact Or.inl hx

theorem pairwise_keys_buildIndex (kws : List Str) (entries : List Entry) :
    ((buildIndex kws entries).map Prod.fst).Pairwise SLt := by
  unfold buildIndex
  have gen : ∀ (es : List Entry) (m : MatchIndex),
      (m.map Prod.fst).Pairwise SLt →
      ((es.foldl (scanEntry kws) m).map Prod.fst).Pairwise SLt := by
    intro es
    induction es with
    | nil => exact fun _ h => h
    | cons e es ih =>
      intro m hm
      simp only [List.foldl_cons]
      exact ih _ (pairwise_keys_scanEntry _ _ _ hm)
  exact gen entries [] (by simp)

theorem mem_keys_buildIndex (kws : List Str) (entries : List Entry)
    (x : Str) (hx : x ∈ (buildIndex kws entries).map Prod.fst) : x ∈ kws := by
  unfold buildIndex at hx
  have gen : ∀ (es : List Entry) (m : MatchIndex),
      x ∈ ((es.foldl (scanEntry kws) m).map Prod.fst) →
      x ∈ m.map Prod.fst ∨ x ∈ kws := by
    intro es
    induction es with
    | nil => exact fun _ h => Or.inl h
    | cons e es ih =>
      intro m hm
      simp only [List.foldl_cons] at hm
      rcases ih _ hm with h2 | h2
      · exact mem_keys_scanEntry kws m e x h2
      · exact Or.inr h2
  rcases gen entries [] hx with h2 | h2
  · simp at h2
  · exact h2

/-- The central characterisation of the built index: the vector under
a key is exactly the paths of the contributing entries in traversal
order. -/
theorem findKey_buildIndex (kws : List Str) (entries : List Entry)
    (k : Str) :
    findKey (buildIndex kws entries) k =
      (entries.filter (entryHit kws k)).map Entry.path := by
  unfold buildIndex
  have gen : ∀ (es : List Entry) (m : MatchIndex),
      (m.map Prod.fst).Pairwise SLt →
      findKey (es.foldl (scanEntry kws) m) k =
        findKey m k ++ (es.filter (entryHit kws k)).map Entry.path := by
    intro es
    induction es with
    | nil => simp
    | cons e es ih =>
      intro m hm
      simp only [List.foldl_cons]
      rw [ih _ (pairwise_keys_scanEntry _ _ _ hm), findKey_scanEntry _ _ _ _ hm]
      by_cases h : entryHit kws k e = true
      · rw [if_pos h, List.filter_cons_of_pos h]
        simp
      · rw [if_neg h, List.filter_cons_of_neg (by simp [h])]
  rw [gen entries [] (by simp)]
  simp [findKey]

/-! The substring test agrees with the declarative notion of a
contiguous substring. -/

theorem leadsWith_iff (n h : Str) :
    leadsWith n h = true ↔ ∃ q, h = n ++ q := by
  induction n generalizing h with
  | nil =>
    simp only [leadsWith, List.nil_append]
    constructor
    · exact fun _ => ⟨h, rfl⟩
    · exact fun _ => by simp
  | cons a as ih =>
    cases h with
    | nil =>
      simp only [leadsWith]
      constructor
      · exact fun hx => Bool.noConfusion hx
      · rintro ⟨q, hq⟩
        exact List.noConfusion hq
    | cons b bs =>
      rw [leadsWith]
      simp only [Bool.and_eq_true, decide_eq_true_eq, ih, List.cons_append]
      constructor
      · rintro ⟨rfl, q, rfl⟩
        exact ⟨q, rfl⟩
      · rintro ⟨q, hq⟩
        obtain ⟨h1, h2⟩ := List.cons.inj hq
        exact ⟨h1.symm, q, h2⟩

theorem occursIn_iff (n h : Str) :
    occursIn n h = true ↔ ∃ p q, h = p ++ n ++ q := by
  induction h with
  | nil =>
    rw [occursIn, leadsWith_iff]
    constructor
    · rintro ⟨q, hq⟩
      exact ⟨[], q, hq⟩
    · rintro ⟨p, q, hpq⟩
      obtain ⟨h12, hq⟩ := List.append_eq_nil.mp hpq.symm
      obtain ⟨hp, hn⟩ := List.append_eq_nil.mp h12
      exact ⟨q, by simp [hn, hq]⟩
  | cons c rest ih =>
    rw [occursIn]
    simp only [Bool.or_eq_true, leadsWith_iff, ih]
    constructor
    · rintro (⟨q, hq⟩ | ⟨p, q, hpq⟩)
      · exact ⟨[], q, by simpa using hq⟩
      · exact ⟨c :: p, q, by simp [hpq]⟩
    · rintro ⟨p, q, hpq⟩
      cases p with
      | nil =>
        exact Or.inl ⟨q, by simpa using hpq⟩
      | cons p0 ps =>
        simp only [List.cons_append, List.append_assoc] at hpq
        obtain ⟨h1, h2⟩ := List.cons.inj hpq
        exact Or.inr ⟨ps, q, by simp [h2]⟩

theorem matchesLine_iff (k l : Str) :
    matchesLine k l = true ↔ ∃ p q, ToLower l = p ++ ToLower k ++ q := by
  unfold matchesLine
  exact occursIn_iff _ _

/-! Consequences of the index characterisation. -/

theorem nodup_findKey_buildIndex (kws : List Str) (entries : List Entry)
    (hnd : (entries.map Entry.path).Nodup) (k : Str) :
    (findKey (buildIndex kws entries) k).Nodup := by
  rw [findKey_buildIndex]
  exact List.Nodup.sublist
    (List.Sublist.map Entry.path (List.filter_sublist _)) hnd

theorem path_mem_findKey (kws : List Str) (entries : List Entry) (e : Entry)
    (k : Str) (he : e ∈ entries) (hhit : entryHit kws k e = true) :
    e.path ∈ findKey (buildIndex kws entries) k := by
  rw [findKey_buildIndex]
  exact List.mem_map_of_mem _ (List.mem_filter.mpr ⟨he, hhit⟩)

/-! The report body as one flat list of sections. -/

theorem reportLines_join (absRoot : Str) (m : MatchIndex) :
    reportLines absRoot m =
      (str "Scan results for directory: " ++ absRoot) ::
        (if m = [] then
          [[], str "No files were found containing the specified keywords."]
        else
          (m.map (fun p => [[], eqLine, keywordHeading p.1, eqLine] ++ p.2)).flatten) := by
  unfold reportLines
  congr 1
  by_cases h : m = []
  · rw [if_pos h, if_pos h]
  · rw [if_neg h, if_neg h]
    have gen : ∀ (mm : MatchIndex) (acc : List Str),
        mm.foldl
          (fun acc p => acc ++ [[], eqLine, keywordHeading p.1, eqLine] ++ p.2)
          acc
          = acc ++
            (mm.map (fun p => [[], eqLine, keywordHeading p.1, eqLine] ++ p.2)).flatten := by
      intro mm
      induction mm with
      | nil => simp
      | cons p ms ih =>
        intro acc
        simp only [List.foldl_cons, List.map_cons, List.flatten_cons]
        rw [ih]
        simp [List.append_assoc]
    rw [gen m []]
    simp

/-! The parsing loop agrees with the declarative /o grammar. -/

theorem parseLoop_eq_specParse (args : List Str) :
    ∀ (out : Str) (kws : List Str),
      parseLoop args out kws false =
        ((specParse args).1.getD out, kws ++ (specParse args).2.1,
          (specParse args).2.2) := by
  induction args using specParse.induct with
  | case1 =>
    intro out kws
    simp [parseLoop, specParse]
  | case2 a hcond =>
    intro out kws
    rw [parseLoop, if_neg (by simp), if_pos hcond, parseLoop]
    have hs : specParse [a] = (none, [], true) := by
      unfold specParse
      rw [if_pos hcond]
    rw [hs]
    simp
  | case3 a hcond b rest2 ih =>
    intro out kws
    rw [parseLoop, if_neg (by simp), if_pos hcond, parseLoop, if_pos rfl, ih]
    have hs : specParse (a :: b :: rest2) =
        (some ((specParse rest2).1.getD b), (specParse rest2).2.1,
          (specParse rest2).2.2) := by
      simp [specParse, hcond]
    rw [hs]
    simp
  | case4 a rest hcond ih =>
    intro out kws
    rw [parseLoop, if_neg (by simp), if_neg hcond, ih]
    have hs : specParse (a :: rest) =
        ((specParse rest).1, a :: (specParse rest).2.1, (specParse rest).2.2) := by
      cases rest with
      | nil =>
        unfold specParse
        rw [if_neg hcond]
        rfl
      | cons b rest2 =>
        conv =>
          lhs
          unfold specParse
        rw [if_neg hcond]
    rw [hs]
    simp

/-! Permutation invariance of the scan in the keyword list. -/

theorem keywordsFoundInFile_perm (kws kws2 lines : List Str)
    (hp : kws.Perm kws2) :
    keywordsFoundInFile kws lines = keywordsFoundInFile kws2 lines :=
  sorted_mem_ext (pairwise_keywordsFoundInFile _ _)
    (pairwise_keywordsFoundInFile _ _)
    (fun x => by
      rw [mem_keywordsFoundInFile, mem_keywordsFoundInFile, hp.mem_iff])

theorem buildIndex_perm (kws kws2 : List Str) (entries : List Entry)
    (hp : kws.Perm kws2) : buildIndex kws entries = buildIndex kws2 entries := by
  unfold buildIndex
  have hstep : ∀ m e, scanEntry kws m e = scanEntry kws2 m e := by
    intro m e
    unfold scanEntry
    rw [keywordsFoundInFile_perm kws kws2 e.lines hp]
  have gen : ∀ (es : List Entry) (m : MatchIndex),
      es.foldl (scanEntry kws) m = es.foldl (scanEntry kws2) m := by
    intro es
    induction es with
    | nil => exact fun _ => rfl
    | cons e es ih =>
      intro m
      simp only [List.foldl_cons]
      rw [hstep]
      exact ih _
  exact gen entries []

/-! The case-sensitive draft variant agrees with the adopted variant on
inputs fixed by lowercasing. -/

theorem lineStepCS_eq (kws : List Str) (acc : List Str) (l : Str)
    (hk : ∀ k ∈ kws, ToLower k = k) (hl : ToLower l = l) :
    kws.foldl (fun s k => if matchesLineCS k l then setInsert s k else s) acc
      = lineStep kws acc l := by
  unfold lineStep
  revert hk
  induction kws generalizing acc with
  | nil => exact fun _ => rfl
  | cons k ks ih =>
    intro hk
    simp only [List.foldl_cons]
    have hm : matchesLineCS k l = matchesLine k l := by
      unfold matchesLine matchesLineCS
      rw [hk k (List.mem_cons_self _ _), hl]
    rw [hm]
    exact ih _ (fun k2 hk2 => hk k2 (List.mem_cons_of_mem _ hk2))

theorem keywordsFoundInFileCS_eq (kws lines : List Str)
    (hk : ∀ k ∈ kws, ToLower k = k) (hl : ∀ l ∈ lines, ToLower l = l) :
    keywordsFoundInFileCS kws lines = keywordsFoundInFile kws lines := by
  unfold keywordsFoundInFileCS keywordsFoundInFile
  suffices gen : ∀ (ls : List Str), (∀ l ∈ ls, ToLower l = l) → ∀ acc,
      ls.foldl
        (fun acc line =>
          kws.foldl (fun s k => if matchesLineCS k line then setInsert s k else s) acc)
        acc
        = ls.foldl (lineStep kws) acc by
    exact gen lines hl []
  intro ls
  induction ls with
  | nil => exact fun _ _ => rfl
  | cons l ls ih =>
    intro hls acc
    simp only [List.foldl_cons]
    rw [lineStepCS_eq kws acc l hk (hls l (List.mem_cons_self _ _))]
    exact ih (fun l2 h2 => hls l2 (List.mem_cons_of_mem _ h2)) _

theorem buildIndexCS_eq (kws : List Str) (entries : List Entry)
    (hk : ∀ k ∈ kws, ToLower k = k)
    (hl : ∀ e ∈ entries, ∀ l ∈ e.lines, ToLower l = l) :
    buildIndexCS kws entries = buildIndex kws entries := by
  unfold buildIndexCS buildIndex
  suffices gen : ∀ (es : List Entry),
      (∀ e ∈ es, ∀ l ∈ e.lines, ToLower l = l) → ∀ m,
      es.foldl (scanEntryCS kws) m = es.foldl (scanEntry kws) m by
    exact gen entries hl []
  intro es
  induction es with
  | nil => exact fun _ _ => rfl
  | cons e es ih =>
    intro hes m
    simp only [List.foldl_cons]
    have hstep : scanEntryCS kws m e = scanEntry kws m e := by
      unfold scanEntryCS scanEntry
      rw [keywordsFoundInFileCS_eq kws e.lines hk
        (hes e (List.mem_cons_self _ _))]
    rw [hstep]
    exact ih (fun e2 h2 => hes e2 (List.mem_cons_of_mem _ h2)) _

/-! Small facts needed by the claims about the empty keyword. -/

theorem occursIn_nil_needle : ∀ h : Str, occursIn [] h = true
  | [] => rfl
  | _ :: _ => rfl

theorem matchesLine_empty_kw (l : Str) : matchesLine [] l = true :=
  occursIn_nil_needle (ToLower l)

/-! The claims. -/

/-- C1: for every candidate file and every keyword of the run, the
keyword is recorded for the file exactly when some line of the file,
with both folded to ASCII lowercase, contains the keyword as a
contiguous substring. -/
theorem per_file_match_iff (kws lines : List Str) (k : Str) (hk : k ∈ kws) :
    k ∈ keywordsFoundInFile kws lines ↔
      ∃ l ∈ lines, ∃ p q, ToLower l = p ++ ToLower k ++ q := by
  rw [mem_keywordsFoundInFile]
  constructor
  · rintro ⟨_, l, hl, hm⟩
    exact ⟨l, hl, (matchesLine_iff k l).mp hm⟩
  · rintro ⟨l, hl, hpq⟩
    exact ⟨hk, l, hl, (matchesLine_iff k l).mpr hpq⟩

/-- C1 witness: the keyword FORM is recorded for a file whose only
line is the tag form in angle brackets. -/
theorem per_file_match_iff_witness :
    str "FORM" ∈ [str "FORM"] ∧
      (str "FORM" ∈ keywordsFoundInFile [str "FORM"] [str "<form>"] ↔
        ∃ l ∈ [str "<form>"], ∃ p q,
          ToLower l = p ++ ToLower (str "FORM") ++ q) :=
  ⟨by decide,
    per_file_match_iff [str "FORM"] [str "<form>"] (str "FORM") (by decide)⟩

/-- C2: the report starts with the header line naming the absolute
scan root; an empty index yields a blank line and the no-files notice;
otherwise each key of the index contributes a blank line, a line of 50
equals signs, the quoted-keyword heading, another line of 50 equals
signs, and its recorded file paths; and the keys stand in strictly
ascending lexicographic order. -/
theorem report_format (absRoot : Str) (kws : List Str) (entries : List Entry) :
    reportLines absRoot (buildIndex kws entries) =
      (str "Scan results for directory: " ++ absRoot) ::
        (if buildIndex kws entries = [] then
          [[], str "No files were found containing the specified keywords."]
        else
          ((buildIndex kws entries).map
            (fun p => [[], eqLine, keywordHeading p.1, eqLine] ++ p.2)).flatten) ∧
      eqLine.length = 50 ∧ (∀ c ∈ eqLine, c = '=') ∧
      ((buildIndex kws entries).map Prod.fst).Pairwise SLt :=
  ⟨reportLines_join _ _, by decide, by decide, pairwise_keys_buildIndex _ _⟩

/-- C3: every key of the built index is one of the run's keywords;
every file recorded under a key comes from a traversal entry with that
path one of whose lines, lowercased, contains the lowercased key; and
when traversal paths are pairwise distinct no (keyword, file) pair is
recorded twice. -/
theorem index_invariants (kws : List Str) (entries : List Entry) :
    (∀ k, k ∈ (buildIndex kws entries).map Prod.fst → k ∈ kws) ∧
    (∀ k f, f ∈ findKey (buildIndex kws entries) k →
      ∃ e ∈ entries, e.path = f ∧
        ∃ l ∈ e.lines, ∃ p q, ToLower l = p ++ ToLower k ++ q) ∧
    ((entries.map Entry.path).Nodup →
      ∀ k, (findKey (buildIndex kws entries) k).Nodup) := by
  refine ⟨fun k hk => mem_keys_buildIndex kws entries k hk, ?_,
    fun hnd k => nodup_findKey_buildIndex kws entries hnd k⟩
  intro k f hf
  rw [findKey_buildIndex] at hf
  obtain ⟨e, he, hpath⟩ := List.mem_map.mp hf
  obtain ⟨hmem, hhit⟩ := List.mem_filter.mp he
  unfold entryHit at hhit
  simp only [Bool.and_eq_true, decide_eq_true_eq] at hhit
  obtain ⟨⟨_, _⟩, hkf⟩ := hhit
  obtain ⟨_, l, hl, hm⟩ := (mem_keywordsFoundInFile kws e.lines k).mp hkf
  exact ⟨e, hmem, hpath, l, hl, (matchesLine_iff k l).mp hm⟩

/-- C4 counterexample: on an existing directory followed by a bare /o
and no keywords the program reports NoKeywords, not
MissingOutputName, because main checks for an empty keyword list
before it checks the dangling flag. -/
theorem dangling_flag_counterexample :
    parseArgs siteOnly [str "./site", str "/o"]
        = Except.error ParseError.NoKeywords ∧
      parseArgs siteOnly [str "./site", str "/o"]
        ≠ Except.error ParseError.MissingOutputName := by
  constructor
  · rfl
  · intro h
    have h2 : (Except.error ParseError.NoKeywords : Except ParseError RunConfig)
        = Except.error ParseError.MissingOutputName := by
      calc (Except.error ParseError.NoKeywords : Except ParseError RunConfig)
          = parseArgs siteOnly [str "./site", str "/o"] := rfl
        _ = Except.error ParseError.MissingOutputName := h
    exact ParseError.noConfusion (Except.error.inj h2)

/-- C4 amended: invoking the program on an existing directory followed
by only the /o flag terminates with exit code 1 reporting the
NoKeywords error, since the empty-keyword check precedes the
dangling-flag check. -/
theorem dangling_flag_no_keywords (isDir : Str → Bool) (d : Str)
    (hd : d ≠ []) (hdir : isDir d = true) :
    parseArgs isDir [d, str "/o"] = Except.error ParseError.NoKeywords ∧
    ∀ entries absRoot outOpen,
      runMain isDir entries absRoot outOpen [d, str "/o"] = (1, none) := by
  have hp : parseArgs isDir [d, str "/o"]
      = Except.error ParseError.NoKeywords := by
    unfold parseArgs
    rw [if_neg (by simp)]
    simp only [parseLoop]
    rw [if_neg (by simp [hd, hdir])]
    rfl
  refine ⟨hp, fun entries absRoot outOpen => ?_⟩
  unfold runMain
  rw [hp]

/-- C4 amended witness at the concrete invocation of the scenario. -/
theorem dangling_flag_no_keywords_witness :
    str "./site" ≠ ([] : Str) ∧ siteOnly (str "./site") = true ∧
      (parseArgs siteOnly [str "./site", str "/o"]
          = Except.error ParseError.NoKeywords ∧
        ∀ entries absRoot outOpen,
          runMain siteOnly entries absRoot outOpen [str "./site", str "/o"]
            = (1, none)) :=
  ⟨by decide, by decide,
    dangling_flag_no_keywords siteOnly (str "./site") (by decide) (by decide)⟩

/-- C5: the parsing loop realises the declarative /o grammar: whenever
a /o or /O token is reached in flag position its immediately following
token is consumed as the output name and is not a keyword, a repeated
pair overrides an earlier one, and with no pair the output name stays
the literal output.txt. -/
theorem output_flag_parsing (args : List Str) :
    parseLoop args (str "output.txt") [] false =
      ((specParse args).1.getD (str "output.txt"), (specParse args).2.1,
        (specParse args).2.2) ∧
    ((specParse args).1 = none →
      (parseLoop args (str "output.txt") [] false).1 = str "output.txt") := by
  have h := parseLoop_eq_specParse args (str "output.txt") []
  rw [List.nil_append] at h
  refine ⟨h, fun hn => ?_⟩
  rw [h, hn]
  rfl

/-- C6: a directory entry is scanned exactly when it is a regular file
whose extension equals .html or .htm under exact case-sensitive
comparison; the file INDEX.HTML has extension .HTML and is skipped
while index.html is scanned. -/
theorem candidate_filter (kws : List Str) (m : MatchIndex) (e : Entry) :
    (scansEntry e = true ↔
      e.isRegularFile = true ∧
        (extension e.path = str ".html" ∨ extension e.path = str ".htm")) ∧
    extension (str "site/INDEX.HTML") = str ".HTML" ∧
    scansEntry indexUpperEntry = false ∧
    scanEntry kws m indexUpperEntry = m ∧
    scansEntry indexLowerEntry = true := by
  refine ⟨?_, by decide, by decide, ?_, by decide⟩
  · unfold scansEntry
    simp [Bool.and_eq_true, Bool.or_eq_true]
  · unfold scanEntry
    rw [if_neg (by decide)]

/-- C7: when the output file cannot be opened for writing the program
exits with code 1 and writes no report at all. -/
theorem output_unopenable (isDir : Str → Bool) (entries : List Entry)
    (absRoot : Str) (args : List Str) :
    runMain isDir entries absRoot false args = (1, none) := by
  unfold runMain
  cases hp : parseArgs isDir args with
  | error e => rfl
  | ok cfg => rfl

/-- C8: permuting the keyword list, with the tree and everything else
fixed, leaves the produced report identical, since sections are keyed
in lexicographic order and file lists depend only on traversal
order. -/
theorem report_perm_invariant (kws kws2 : List Str) (entries : List Entry)
    (absRoot : Str) (hp : kws.Perm kws2) :
    reportLines absRoot (buildIndex kws entries) =
      reportLines absRoot (buildIndex kws2 entries) := by
  rw [buildIndex_perm kws kws2 entries hp]

/-- C8 witness: swapping two keywords on the sample tree leaves the
report unchanged. -/
theorem report_perm_invariant_witness :
    ([str "gallery", str "form"]).Perm [str "form", str "gallery"] ∧
      reportLines (str "/abs/site")
          (buildIndex [str "gallery", str "form"] sampleEntries) =
        reportLines (str "/abs/site")
          (buildIndex [str "form", str "gallery"] sampleEntries) :=
  ⟨by decide,
    report_perm_invariant [str "gallery", str "form"] [str "form", str "gallery"]
      sampleEntries (str "/abs/site") (by decide)⟩

/-- C9: on inputs where ASCII lowercasing fixes every keyword and every
line, the case-sensitive draft variant builds the same index and the
same report as the adopted case-insensitive variant. -/
theorem draft_variant_refines (kws : List Str) (entries : List Entry)
    (absRoot : Str) (hk : ∀ k ∈ kws, ToLower k = k)
    (hl : ∀ e ∈ entries, ∀ l ∈ e.lines, ToLower l = l) :
    buildIndexCS kws entries = buildIndex kws entries ∧
      reportLines absRoot (buildIndexCS kws entries) =
        reportLines absRoot (buildIndex kws entries) := by
  have h := buildIndexCS_eq kws entries hk hl
  exact ⟨h, by rw [h]⟩

/-- C9 witness: the two variants agree on an all-lowercase tree and
keyword list. -/
theorem draft_variant_refines_witness :
    (∀ k ∈ [str "form"], ToLower k = k) ∧
    (∀ e ∈ lowerEntries, ∀ l ∈ e.lines, ToLower l = l) ∧
    (buildIndexCS [str "form"] lowerEntries
        = buildIndex [str "form"] lowerEntries ∧
      reportLines (str "/abs/site") (buildIndexCS [str "form"] lowerEntries) =
        reportLines (str "/abs/site") (buildIndex [str "form"] lowerEntries)) :=
  ⟨by decide, by decide,
    draft_variant_refines [str "form"] lowerEntries (str "/abs/site")
      (by decide) (by decide)⟩

/-- C10: the parser accepts an empty-string token as a keyword, the
empty keyword is found in a candidate file exactly when the file has
at least one line, and such a file is then recorded under the
empty-string key. -/
theorem empty_keyword_behaviour (isDir : Str → Bool) (d : Str)
    (kws lines : List Str) (entries : List Entry) (e : Entry)
    (hd : d ≠ []) (hdir : isDir d = true)
    (hk : [] ∈ kws) (he : e ∈ entries) (hc : scansEntry e = true)
    (hr : e.readable = true) (hl : e.lines ≠ []) :
    parseArgs isDir [d, []] = Except.ok ⟨d, str "output.txt", [[]]⟩ ∧
    ([] ∈ keywordsFoundInFile kws lines ↔ lines ≠ []) ∧
    e.path ∈ findKey (buildIndex kws entries) [] := by
  refine ⟨?_, ?_, ?_⟩
  · unfold parseArgs
    rw [if_neg (by simp)]
    simp only [parseLoop]
    rw [if_neg (by simp [hd, hdir])]
    rfl
  · rw [mem_keywordsFoundInFile]
    constructor
    · rintro ⟨_, l, hl2, _⟩
      exact List.ne_nil_of_mem hl2
    · intro hne
      obtain ⟨l, hl2⟩ := List.exists_mem_of_ne_nil lines hne
      exact ⟨hk, l, hl2, matchesLine_empty_kw l⟩
  · refine path_mem_findKey kws entries e [] he ?_
    unfold entryHit
    simp only [hc, hr, Bool.and_eq_true, decide_eq_true_eq, true_and]
    rw [mem_keywordsFoundInFile]
    obtain ⟨l, hl2⟩ := List.exists_mem_of_ne_nil e.lines hl
    exact ⟨hk, l, hl2, matchesLine_empty_kw l⟩

/-- C10 witness: a run on one readable one-line candidate file with the
empty keyword, which the parser accepted, records that file under the
empty key. -/
theorem empty_keyword_behaviour_witness :
    str "./site" ≠ ([] : Str) ∧ siteOnly (str "./site") = true ∧
    ([] : Str) ∈ [([] : Str)] ∧
    indexLowerEntry ∈ [indexLowerEntry] ∧
    scansEntry indexLowerEntry = true ∧
    indexLowerEntry.readable = true ∧
    indexLowerEntry.lines ≠ [] ∧
    (parseArgs siteOnly [str "./site", []]
        = Except.ok ⟨str "./site", str "output.txt", [[]]⟩ ∧
      (([] : Str) ∈ keywordsFoundInFile [([] : Str)] [str "<form>"] ↔
        ([str "<form>"] : List Str) ≠ []) ∧
      indexLowerEntry.path ∈
        findKey (buildIndex [([] : Str)] [indexLowerEntry]) []) :=
  ⟨by decide, by decide, by decide, by decide, by decide, by decide, by decide,
    empty_keyword_behaviour siteOnly (str "./site") [([] : Str)]
      [str "<form>"] [indexLowerEntry] indexLowerEntry
      (by decide) (by decide) (by decide) (by decide) (by decide) (by decide)
      (by decide)⟩
